import Mathlib

/-!
Shallow embedding of the asciinema-editor core (src/cast.rs and
src/asciicast_egui.rs) and proofs about it.

Modelling conventions:
* `f64` / `f32` values that the code only compares, adds or multiplies are
  modelled as `ℚ` (the code never relies on rounding for the properties
  studied here); `usize`, `u8`, `u16` become `Nat`.
* The read-only memory map is a `List Char` (the code treats the file as
  text lines; every byte position of interest is a char position here).
* The `BTreeMap<usize, ModificationChain>` overlay is an association list
  kept sorted by key by its single insertion operation, matching the
  ascending-key iteration order of the B-tree.
* Rust methods mutating `self.modifications` and returning
  `Result<(), CastError>` become functions returning the new overlay
  together with `Option CastError` (the overlay is returned even on error,
  because the Rust code mutates `self` before some error returns).
-/

namespace Asc

/-- RGB color triple; models `eframe::egui::Color32` as used by the theme
codec (only the r, g, b channels are read or written by this code). -/
structure Color32 where
  r : Nat
  g : Nat
  b : Nat
  deriving DecidableEq

/-- `Theme` from src/asciicast_egui.rs. -/
structure Theme where
  fg : Color32
  bg : Color32
  palette : List Color32
  deriving DecidableEq

/-- `Header` from src/asciicast_egui.rs (the derived serde field order is
the declaration order used here). `env` is a `HashMap` in the source; a
list of pairs models it. -/
structure Header where
  version : Nat
  width : Nat
  height : Nat
  timestamp : Option Nat
  duration : Option ℚ
  idle_time_limit : Option ℚ
  command : Option String
  title : Option String
  env : Option (List (String × String))
  theme : Option Theme
  deriving DecidableEq

/-- `EventData` from src/asciicast_egui.rs: the closed payload variant. -/
inductive EventData where
  | Output (s : String)
  | Input (s : String)
  | Resize (cols rows : Nat)
  | Marker (s : String)
  | Other (code : Char) (s : String)
  deriving DecidableEq

/-- `Event` from src/asciicast_egui.rs: time in seconds (`f64` in the
source) plus the tagged payload. -/
structure Event where
  time : ℚ
  data : EventData
  deriving DecidableEq

/-- `EventPositioned` from src/cast.rs: an event with the byte offset of
the original-file line it originates from or is anchored before. -/
structure EventPositioned where
  event : Event
  byte_location : Nat
  deriving DecidableEq

/-- `CastError` from src/cast.rs (the variants exercised by the embedded
code; message payloads are kept where the code builds them). -/
inductive CastError where
  | InvalidVersion
  | SerializationError (msg : String)
  | DeserializationError (msg : String)
  | TimingError
  | ModificationError
  | UnverifiableTime
  deriving DecidableEq

/-- Decidable equality for `Except`, so concrete runs of the fallible
operations can be checked by `decide`. -/
instance {ε α : Type _} [DecidableEq ε] [DecidableEq α] : DecidableEq (Except ε α) := fun a b =>
  match a, b with
  | .ok x, .ok y =>
    match decEq x y with
    | isTrue h => isTrue (h ▸ rfl)
    | isFalse h => isFalse fun hh => h (Except.ok.inj hh)
  | .error x, .error y =>
    match decEq x y with
    | isTrue h => isTrue (h ▸ rfl)
    | isFalse h => isFalse fun hh => h (Except.error.inj hh)
  | .ok _, .error _ => isFalse fun hh => Except.noConfusion hh
  | .error _, .ok _ => isFalse fun hh => Except.noConfusion hh

/-- `ModificationAction` from src/cast.rs. -/
inductive ModificationAction where
  | Addition (event : Event)
  | Deletion
  | ModifyData (data : EventData)
  deriving DecidableEq

/-- `ModificationChain` from src/cast.rs: pending insertions at one byte
offset plus the flag suppressing the original line there. -/
structure ModificationChain where
  modifications : List Event
  original_deleted : Bool
  deriving DecidableEq

/-- `ModificationChain::new`. -/
def ModificationChain.new : ModificationChain :=
  { modifications := [], original_deleted := false }

/-- `AdvancedModificationAction` from src/cast.rs. -/
inductive AdvancedModificationAction where
  | Modify (event : Event)
  | Swap (target : EventPositioned) (target_order : Nat)
  deriving DecidableEq

/-- The overlay store: `BTreeMap<usize, ModificationChain>` modelled as an
association list sorted by key. -/
abbrev Overlay := List (Nat × ModificationChain)

/-- `BTreeMap::get`. -/
def olook : Overlay → Nat → Option ModificationChain
  | [], _ => none
  | (k', v) :: rest, k => if k = k' then some v else olook rest k

/-- Store `v` at key `k`, keeping the list sorted by key (replaces an
existing entry). This is the only way entries are ever added, so every
overlay built by the operations below is sorted, as a `BTreeMap` is. -/
def oinsert : Overlay → Nat → ModificationChain → Overlay
  | [], k, v => [(k, v)]
  | (k', v') :: rest, k, v =>
    if k < k' then (k, v) :: (k', v') :: rest
    else if k = k' then (k, v) :: rest
    else (k', v') :: oinsert rest k v

/-- `self.modifications.entry(k).or_insert_with(ModificationChain::new)`:
returns the overlay (with an empty chain inserted if the key was absent)
together with the chain now present at `k`. -/
def ensure_entry (m : Overlay) (k : Nat) : Overlay × ModificationChain :=
  match olook m k with
  | some c => (m, c)
  | none => (oinsert m k ModificationChain.new, ModificationChain.new)

/-- `a :: l` at position `n` (`Vec::insert`; callers always pass
`n ≤ l.length`, and this total model appends past the end). -/
def insertAt : List α → Nat → α → List α
  | l, 0, a => a :: l
  | [], _ + 1, a => [a]
  | b :: l, n + 1, a => b :: insertAt l n a

/-- `CastFile::action` from src/cast.rs. The Rust method mutates
`self.modifications` (creating the entry at `current_event.byte_location`
before any check) and returns `Result<(), CastError>`; here the updated
overlay is returned alongside the optional error. -/
def action (mods : Overlay) (act : ModificationAction) (order : Nat)
    (current_event : EventPositioned) (previous_event : Option EventPositioned) :
    Overlay × Option CastError :=
  let k := current_event.byte_location
  let p := ensure_entry mods k
  let mods := p.1
  let entry := p.2
  let order := min order entry.modifications.length
  match act with
  | .Addition event =>
    match previous_event with
    | some previous_event =>
      if previous_event.event.time < event.time ∧ event.time < current_event.event.time then
        (oinsert mods k { entry with modifications := insertAt entry.modifications order event }, none)
      else
        (mods, some .TimingError)
    | none => (mods, some .UnverifiableTime)
  | .Deletion =>
    match entry.modifications[order]? with
    | some _ =>
      (oinsert mods k { entry with modifications := entry.modifications.eraseIdx order }, none)
    | none =>
      (oinsert mods k { entry with original_deleted := !entry.original_deleted }, none)
  | .ModifyData event_data =>
    match entry.modifications[order]? with
    | some event =>
      (oinsert mods k { entry with modifications := entry.modifications.set order { event with data := event_data } }, none)
    | none => (mods, some .ModificationError)

/-- `CastFile::advanced_action` from src/cast.rs. `Modify` runs a
`Deletion` at `current_event` and then an `Addition` anchored at
`next_event`, propagating the first error (`?` in the source) with the
earlier step left applied. `Swap` runs two `ModifyData` calls and ignores
both results (the source discards the two `Result`s and returns `Ok(())`). -/
def advanced_action (mods : Overlay) (act : AdvancedModificationAction) (order : Nat)
    (current_event : EventPositioned) (previous_event : Option EventPositioned)
    (next_event : Option EventPositioned) : Overlay × Option CastError :=
  let k := current_event.byte_location
  let p := ensure_entry mods k
  let mods := p.1
  let entry := p.2
  let order := min order entry.modifications.length
  match act with
  | .Modify event =>
    match next_event with
    | some next_event =>
      match previous_event with
      | some previous_event =>
        let r1 := action mods .Deletion order current_event none
        match r1.2 with
        | some e => (r1.1, some e)
        | none =>
          let r2 := action r1.1 (.Addition event) 0 next_event (some previous_event)
          match r2.2 with
          | some e => (r2.1, some e)
          | none => (r2.1, none)
      | none => (mods, some .UnverifiableTime)
    | none => (mods, some .UnverifiableTime)
  | .Swap target_event target_order =>
    let current_data := current_event.event.data
    let targeted_data := target_event.event.data
    let r1 := action mods (.ModifyData targeted_data) order current_event none
    let r2 := action r1.1 (.ModifyData current_data) target_order target_event none
    (r2.1, none)

/-- `CastFile::get_order` from src/cast.rs. -/
def get_order (mods : Overlay) (byte_location : Nat) (base_event : Event) : Nat :=
  match olook mods byte_location with
  | none => 0
  | some chain =>
    match chain.modifications.findIdx? (fun event => event.time == base_event.time) with
    | some i => i
    | none => chain.modifications.length

/-! ## Event codec (src/asciicast_egui.rs) -/

/-- `EventError` from src/asciicast_egui.rs (the `Time` variant wraps a
`ParseFloatError` in the source; no payload is kept here). -/
inductive EventError where
  | Format (msg : String)
  | Time
  | Resize (got : String)
  | MissingCode
  | PartCount (got : Nat)
  deriving DecidableEq

/-- `str::trim` on a char list (the payloads in play only use ASCII
whitespace, where `Char.isWhitespace` agrees with Rust). -/
def trimChars (l : List Char) : List Char :=
  ((l.dropWhile Char.isWhitespace).reverse.dropWhile Char.isWhitespace).reverse

/-- `str::trim_matches('"')`: strip every leading and trailing `"`. -/
def trimQuotes (l : List Char) : List Char :=
  ((l.dropWhile (· = '"')).reverse.dropWhile (· = '"')).reverse

/-- Value of a digit list in base 10. -/
def digitsToNat (l : List Char) : Nat :=
  l.foldl (fun a c => a * 10 + (c.toNat - 48)) 0

/-- The rational `±(ip + f/10^|f|) · 10^ex` denoted by a decimal literal
with integer digits `ip`, fraction digits `f` and exponent `ex`, built
through `mkRat` on integers (equal to the irreducible field operations'
result, but kernel-reducible so concrete runs evaluate). -/
def decimalValue (neg : Bool) (ip f : List Char) (ex : ℤ) : ℚ :=
  let m : ℤ := ((digitsToNat ip * 10 ^ f.length + digitsToNat f : Nat) : ℤ)
  let m := if neg then -m else m
  if 0 ≤ ex then mkRat (m * (10 : ℤ) ^ ex.toNat) (10 ^ f.length)
  else mkRat m (10 ^ f.length * 10 ^ (-ex).toNat)

/-- The exponent suffix of a Rust float literal: optional sign then
digits, which must end the string. -/
def expoRead (r : List Char) : Option ℤ :=
  let esp : Bool × List Char :=
    match r with
    | '+' :: r2 => (false, r2)
    | '-' :: r2 => (true, r2)
    | r2 => (false, r2)
  let edd := esp.2.span Char.isDigit
  if edd.1 = [] ∨ edd.2 ≠ [] then none
  else some (if esp.1 then -(digitsToNat edd.1 : ℤ) else (digitsToNat edd.1 : ℤ))

/-- `str::parse::<f64>` on the decimal forms the event codec meets:
optional sign, digits with optional fraction, optional exponent; the whole
string must be consumed. (`inf`/`NaN` inputs are not modelled; no claim
exercises them.) The exactly-represented rational replaces the rounded
`f64`. -/
def parse_f64 (cs : List Char) : Option ℚ :=
  let sp : Bool × List Char :=
    match cs with
    | '+' :: r => (false, r)
    | '-' :: r => (true, r)
    | r => (false, r)
  let ipp := sp.2.span Char.isDigit
  let fpp : Option (List Char) × List Char :=
    match ipp.2 with
    | '.' :: r => ((r.span Char.isDigit).1, (r.span Char.isDigit).2) |> fun q => (some q.1, q.2)
    | r => (none, r)
  if ipp.1 = [] ∧ fpp.1.getD [] = [] then none
  else
    let f := fpp.1.getD []
    match fpp.2 with
    | [] => some (decimalValue sp.1 ipp.1 f 0)
    | 'e' :: r => (expoRead r).map (decimalValue sp.1 ipp.1 f)
    | 'E' :: r => (expoRead r).map (decimalValue sp.1 ipp.1 f)
    | _ => none

/-- `str::parse::<u16>`: optional `+`, one or more digits, value below
2^16, whole string consumed. -/
def parse_u16 (cs : List Char) : Option Nat :=
  let cs2 := match cs with | '+' :: r => r | r => r
  if cs2 ≠ [] ∧ cs2.all Char.isDigit ∧ digitsToNat cs2 < 65536 then some (digitsToNat cs2)
  else none

/-- The 3-state character scan of `impl Deserialize for Event`
(src/asciicast_egui.rs lines 244-291): splits the bracket-stripped line
into parts at unquoted commas, recognising `\"` and dropping every other
backslash that starts an escape (the catch-all arm then pushes the
following character verbatim). Returns the trimmed parts. -/
def lexLoop : List Char → List (List Char) → List Char → Bool → Bool → List (List Char)
  | [], parts, current, _, _ =>
    if current = [] then parts else parts ++ [trimChars current]
  | c :: rest, parts, current, in_quotes, escaped =>
    if c = '"' ∧ escaped then lexLoop rest parts (current ++ ['"']) in_quotes false
    else if c = '\\' ∧ escaped = false then lexLoop rest parts current in_quotes true
    else if c = '"' ∧ escaped = false then lexLoop rest parts current (!in_quotes) false
    else if c = ',' ∧ in_quotes = false ∧ escaped = false then
      lexLoop rest (if current = [] then parts else parts ++ [trimChars current]) [] false false
    else lexLoop rest parts (current ++ [c]) in_quotes false

/-- Index of the first character satisfying `p` (`Iterator::position`). -/
def findIdxP (p : Char → Bool) : List Char → Option Nat
  | [] => none
  | c :: rest => if p c then some 0 else (findIdxP p rest).map (· + 1)

/-- `str::split_once('x')`: the parts before and after the first `x`. -/
def splitOnceX (l : List Char) : Option (List Char × List Char) :=
  match findIdxP (· = 'x') l with
  | some i => some (l.take i, l.drop (i + 1))
  | none => none

/-- The string-lexer path of `impl Deserialize for Event`
(src/asciicast_egui.rs lines 227-339): parse a textual
`[<float>, "<code>", "<text>"]` line into an `Event`. -/
def event_from_line_str (input : List Char) : Except EventError Event :=
  if input.head? = some '[' ∧ input.getLast? = some ']' then
    let inner := (input.drop 1).dropLast
    let parts := lexLoop inner [] [] false false
    match parts with
    | [p0, p1, p2] =>
      match parse_f64 p0 with
      | none => .error .Time
      | some time =>
        match (trimQuotes p1).head? with
        | none => .error .MissingCode
        | some code =>
          let data := trimQuotes p2
          match code with
          | 'o' => .ok ⟨time, .Output (String.mk data)⟩
          | 'i' => .ok ⟨time, .Input (String.mk data)⟩
          | 'r' =>
            match splitOnceX data with
            | none => .error (.Resize (String.mk data))
            | some (cols, rows) =>
              match parse_u16 cols, parse_u16 rows with
              | some c, some r => .ok ⟨time, .Resize c r⟩
              | _, _ => .error (.Resize (String.mk data))
          | 'm' => .ok ⟨time, .Marker (String.mk data)⟩
          | c => .ok ⟨time, .Other c (String.mk data)⟩
    | _ => .error (.PartCount parts.length)
  else .error (.Format "Event must be wrapped in brackets")

/-! ### Serialization (impl Serialize for Event, CastFile::serialize_event) -/

/-- Lowercase hex digit. -/
def hexDigit (d : Nat) : Char :=
  if d < 10 then Char.ofNat (48 + d) else Char.ofNat (87 + d)

/-- Decimal digit character. -/
def digitChar (d : Nat) : Char := Char.ofNat (48 + d)

/-- Decimal digits of `n` (helper with fuel; `n + 1` steps always
suffice, so `natToChars` is exact). -/
def natToCharsAux : Nat → Nat → List Char
  | 0, _ => []
  | fuel + 1, n => if n = 0 then [] else natToCharsAux fuel (n / 10) ++ [digitChar (n % 10)]

/-- Decimal rendering of a `Nat` (Rust `Display` for unsigned integers). -/
def natToChars (n : Nat) : List Char :=
  if n = 0 then ['0'] else natToCharsAux (n + 1) n

/-- Digits after the decimal point of `r / d` (fuel-bounded long
division; terminates exactly when the expansion does). -/
def fracChars (d : Nat) : Nat → Nat → List Char
  | 0, _ => []
  | fuel + 1, r => if r = 0 then [] else digitChar (r * 10 / d) :: fracChars d fuel (r * 10 % d)

/-- Rust `Display` for the `f64` event time, on the exactly-representable
decimals this editor produces (shortest decimal form: no trailing zeros,
no decimal point for integers — `1.0` prints as `1`, `1.5` as `1.5`). -/
def ratChars (q : ℚ) : List Char :=
  let sgn : List Char := if q < 0 then ['-'] else []
  let n := q.num.natAbs
  let d := q.den
  if n % d = 0 then sgn ++ natToChars (n / d)
  else sgn ++ natToChars (n / d) ++ '.' :: fracChars d 64 (n % d)

/-- serde_json's escaping of one string character. -/
def jsonEscapeChar (c : Char) : List Char :=
  if c = '"' then ['\\', '"']
  else if c = '\\' then ['\\', '\\']
  else if c = '\n' then ['\\', 'n']
  else if c = '\r' then ['\\', 'r']
  else if c = '\t' then ['\\', 't']
  else if c.toNat = 8 then ['\\', 'b']
  else if c.toNat = 12 then ['\\', 'f']
  else if c.toNat < 32 then ['\\', 'u', '0', '0', hexDigit (c.toNat / 16), hexDigit (c.toNat % 16)]
  else [c]

/-- serde_json's escaping of a string body (quotes not included). -/
def jsonEscape (s : List Char) : List Char := (s.map jsonEscapeChar).flatten

/-- `data.replace('\"', "\\\"")` from `impl Serialize for Event`. -/
def escapeQuotes (s : List Char) : List Char :=
  (s.map fun c => if c = '"' then ['\\', '"'] else [c]).flatten

/-- The `formatted` string built by `impl Serialize for Event`
(src/asciicast_egui.rs lines 197-212): the bracket text
`[<time>, "<code>", "<payload with quotes re-escaped>"]`. -/
def event_format_chars (e : Event) : List Char :=
  let cd : Char × List Char :=
    match e.data with
    | .Output data => ('o', data.toList)
    | .Input data => ('i', data.toList)
    | .Resize cols rows => ('r', natToChars cols ++ 'x' :: natToChars rows)
    | .Marker data => ('m', data.toList)
    | .Other code data => (code, data.toList)
  '[' :: ratChars e.time ++ ',' :: ' ' :: '"' :: cd.1 :: '"' :: ',' :: ' ' :: '"' ::
    (escapeQuotes cd.2 ++ ['"', ']'])

/-- `CastFile::serialize_event` (src/cast.rs lines 326-330):
`serde_json::to_string(event)` runs `impl Serialize for Event`, which
calls `serialize_str` on the formatted bracket text — so the emitted line
is that text wrapped as a JSON string literal — then a newline is
appended. (`Event` serialization cannot fail, so the Rust `Result` is
always `Ok`.) -/
def serialize_event (e : Event) : List Char :=
  '"' :: (jsonEscape (event_format_chars e) ++ ['"', '\n'])

/-! ### serde_json::from_str::<Event> — the per-line parse used by
`parse_events`. A line is first parsed as a JSON value; a JSON string
goes through the string lexer above, a 3-element JSON array through the
direct array path. Only the value shapes that can reach an `Ok` event
are parsed (numbers and strings inside a flat array, or a top-level
string); every other JSON value — and every JSON syntax error — makes
the original code return an error for that line, modelled as `none`. -/

/-- JSON scalar values as needed by the `Event` array path. -/
inductive JVal where
  | num (q : ℚ)
  | str (s : List Char)
  deriving DecidableEq

/-- JSON whitespace skip. -/
def skipWS (l : List Char) : List Char :=
  l.dropWhile fun c => c = ' ' ∨ c = '\t' ∨ c = '\n' ∨ c = '\r'

/-- Value of four hex digits, if all four are hex. -/
def hexVal4 (a b c d : Char) : Option Nat :=
  let v : Char → Option Nat := fun x =>
    if '0' ≤ x ∧ x ≤ '9' then some (x.toNat - 48)
    else if 'a' ≤ x ∧ x ≤ 'f' then some (x.toNat - 87)
    else if 'A' ≤ x ∧ x ≤ 'F' then some (x.toNat - 55)
    else none
  match v a, v b, v c, v d with
  | some x, some y, some z, some w => some (((x * 16 + y) * 16 + z) * 16 + w)
  | _, _, _, _ => none

/-- Decode one JSON string escape after the backslash; returns the
decoded character and the remaining input (surrogate pairs combined,
lone surrogates rejected, as serde_json does). -/
def decodeEsc : Char → List Char → Option (Char × List Char)
  | '"', r => some ('"', r)
  | '\\', r => some ('\\', r)
  | '/', r => some ('/', r)
  | 'b', r => some (Char.ofNat 8, r)
  | 'f', r => some (Char.ofNat 12, r)
  | 'n', r => some ('\n', r)
  | 'r', r => some ('\r', r)
  | 't', r => some ('\t', r)
  | 'u', a :: b :: c :: d :: r =>
    match hexVal4 a b c d with
    | none => none
    | some code =>
      if 0xD800 ≤ code ∧ code < 0xDC00 then
        match r with
        | '\\' :: 'u' :: a2 :: b2 :: c2 :: d2 :: r2 =>
          match hexVal4 a2 b2 c2 d2 with
          | some low =>
            if 0xDC00 ≤ low ∧ low < 0xE000 then
              some (Char.ofNat (0x10000 + (code - 0xD800) * 0x400 + (low - 0xDC00)), r2)
            else none
          | none => none
        | _ => none
      else if 0xDC00 ≤ code ∧ code < 0xE000 then none
      else some (Char.ofNat code, r)
  | _, _ => none

/-- Parse a JSON string body (opening quote already consumed): returns
the decoded content and what follows the closing quote. Fuel-bounded;
each step consumes at least one input character, so the input length
is enough fuel. -/
def jsonStrAux : Nat → List Char → Option (List Char × List Char)
  | 0, _ => none
  | _, [] => none
  | _ + 1, '"' :: rest => some ([], rest)
  | fuel + 1, '\\' :: e :: rest =>
    match decodeEsc e rest with
    | none => none
    | some (c, rest2) =>
      match jsonStrAux fuel rest2 with
      | none => none
      | some (s, r) => some (c :: s, r)
  | fuel + 1, c :: rest =>
    if c.toNat < 32 then none
    else
      match jsonStrAux fuel rest with
      | none => none
      | some (s, r) => some (c :: s, r)

/-- Parse a JSON number (grammar `-? (0|[1-9][0-9]*) (.[0-9]+)?
([eE][+-]?[0-9]+)?`): returns the value and the remaining input. -/
def jsonNum (cs : List Char) : Option (ℚ × List Char) :=
  let sp : Bool × List Char := match cs with | '-' :: r => (true, r) | r => (false, r)
  let ipp := sp.2.span Char.isDigit
  if ipp.1 = [] then none
  else if 1 < ipp.1.length ∧ ipp.1.head? = some '0' then none
  else
    let fpp : Option (List Char) × List Char :=
      match ipp.2 with
      | '.' :: r =>
        let q := r.span Char.isDigit
        if q.1 = [] then (some [], '.' :: r) else (some q.1, q.2)
      | r => (none, r)
    match fpp.1 with
    | some [] => none
    | _ =>
      let f := fpp.1.getD []
      match fpp.2 with
      | 'e' :: r =>
        let esp : Bool × List Char :=
          match r with
          | '+' :: r2 => (false, r2)
          | '-' :: r2 => (true, r2)
          | r2 => (false, r2)
        let edd := esp.2.span Char.isDigit
        if edd.1 = [] then none
        else some (decimalValue sp.1 ipp.1 f
          (if esp.1 then -(digitsToNat edd.1 : ℤ) else (digitsToNat edd.1 : ℤ)), edd.2)
      | 'E' :: r =>
        let esp : Bool × List Char :=
          match r with
          | '+' :: r2 => (false, r2)
          | '-' :: r2 => (true, r2)
          | r2 => (false, r2)
        let edd := esp.2.span Char.isDigit
        if edd.1 = [] then none
        else some (decimalValue sp.1 ipp.1 f
          (if esp.1 then -(digitsToNat edd.1 : ℤ) else (digitsToNat edd.1 : ℤ)), edd.2)
      | r => some (decimalValue sp.1 ipp.1 f 0, r)

/-- Parse one JSON scalar (string or number). -/
def jsonScalar (cs : List Char) : Option (JVal × List Char) :=
  match cs with
  | '"' :: r =>
    match jsonStrAux (r.length + 1) r with
    | some (s, rest) => some (.str s, rest)
    | none => none
  | _ =>
    match jsonNum cs with
    | some (q, rest) => some (.num q, rest)
    | none => none

/-- Parse the elements of a flat JSON array (opening bracket consumed).
Fuel-bounded; each element consumes input. -/
def jsonArrElems : Nat → List Char → Option (List JVal × List Char)
  | 0, _ => none
  | fuel + 1, cs =>
    match skipWS cs with
    | ']' :: rest => some ([], rest)
    | cs2 =>
      match jsonScalar cs2 with
      | none => none
      | some (v, rest) =>
        match skipWS rest with
        | ',' :: rest2 =>
          match jsonArrElems fuel rest2 with
          | none => none
          | some (vs, rest3) => some (v :: vs, rest3)
        | ']' :: rest2 => some ([v], rest2)
        | _ => none

/-- The `Value::Array(arr) if arr.len() == 3` path of
`impl Deserialize for Event` (src/asciicast_egui.rs lines 341-393).
Note the source re-encodes the decoded payload string through
`serde_json::to_string(s)` and `trim_matches('"')`, so `data` holds the
escaped representation. -/
def event_from_array (a b c : JVal) : Option Event :=
  match a with
  | .num time =>
    match b with
    | .str bs =>
      match bs.head? with
      | some code =>
        match c with
        | .str s =>
          let data := trimQuotes ('"' :: (jsonEscape s ++ ['"']))
          match code with
          | 'o' => some ⟨time, .Output (String.mk data)⟩
          | 'i' => some ⟨time, .Input (String.mk data)⟩
          | 'r' =>
            match splitOnceX data with
            | none => none
            | some (cols, rows) =>
              match parse_u16 cols, parse_u16 rows with
              | some cv, some rv => some ⟨time, .Resize cv rv⟩
              | _, _ => none
          | 'm' => some ⟨time, .Marker (String.mk data)⟩
          | ch => some ⟨time, .Other ch (String.mk data)⟩
        | _ => none
      | none => none
    | _ => none
  | _ => none

/-- `serde_json::from_str::<Event>` on one line: parse the line as a JSON
value, then dispatch exactly as `impl Deserialize for Event` does — a
JSON string runs the string lexer on its decoded content, a 3-element
array takes the direct path, everything else errors (`none`). -/
def parseLine (line : List Char) : Option Event :=
  match skipWS line with
  | '"' :: r =>
    match jsonStrAux (r.length + 1) r with
    | some (content, rest) =>
      if skipWS rest = [] then (event_from_line_str content).toOption else none
    | none => none
  | '[' :: r =>
    match jsonArrElems (r.length + 1) r with
    | some (elems, rest) =>
      if skipWS rest = [] then
        match elems with
        | [a, b, c] => event_from_array a b c
        | _ => none
      else none
    | none => none
  | _ => none

/-! ## CastFile reads and save (src/cast.rs) -/

/-- Strip one trailing carriage return, as `str::lines` does for each
segment that ends before a newline. -/
def stripCR (l : List Char) : List Char :=
  if l.getLast? = some '\r' then l.dropLast else l

/-- One iteration of the `parse_events` loop body: trim the line, skip it
if empty, otherwise parse it with `serde_json::from_str::<Event>`,
skipping (with a log line in the source) lines that fail. -/
def processLine (raw : List Char) (line_start : Nat) : List EventPositioned :=
  let line := trimChars (stripCR raw)
  if line = [] then []
  else
    match parseLine line with
    | some event => [⟨event, line_start⟩]
    | none => []

/-- The `for line in input.lines()` loop of `parse_events`
(src/cast.rs lines 382-415): `cur` is the segment accumulated since the
last newline, `cpos` the `current_position` counter of the source —
advanced by the carriage-return-stripped length plus one, exactly as the
source does. -/
def parse_events_go : List Char → List Char → Nat → List EventPositioned
  | [], cur, cpos => if cur = [] then [] else processLine cur cpos
  | c :: rest, cur, cpos =>
    if c = '\n' then
      processLine cur cpos ++ parse_events_go rest [] (cpos + (stripCR cur).length + 1)
    else parse_events_go rest (cur ++ [c]) cpos

/-- `parse_events` (src/cast.rs lines 382-415). The only error path of the
source is a UTF-8 decoding failure of the byte slice, which cannot occur
in this char-level model, so the result is the `Ok` payload. -/
def parse_events (s : List Char) (base_position : Nat) : List EventPositioned :=
  parse_events_go s [] base_position

/-- `find_next_newline` (src/cast.rs lines 469-474). -/
def find_next_newline (buffer : List Char) (start : Nat) : Nat :=
  match findIdxP (· = '\n') (buffer.drop start) with
  | some p => start + p + 1
  | none => buffer.length

/-- `CastFile`: the memory map, the decoded header and the overlay store
(`file_path` is irrelevant here and `file_size` always equals the map's
length, both being the size of the opened file). -/
structure CastFile where
  mmap : List Char
  header : Header
  modifications : Overlay

/-- `&l[a..b]` (for the in-bounds slices the code takes; the one place the
source could slice with `b < a` would panic there and yields `[]` here,
see `mergeLoop`). -/
def slice (l : List Char) (a b : Nat) : List Char := (l.drop a).take (b - a)

/-- The newline-counting loop of `get_lines` that bounds the byte window:
returns `i + 1` for the index `i` of the `n`-th newline at or after the
scan start, if `n ≥ 1` newlines exist. -/
def scanNth : List Char → Nat → Nat → Option Nat
  | [], _, _ => none
  | c :: rest, n, i =>
    if c = '\n' then
      if n = 1 then some (i + 1) else scanNth rest (n - 1) (i + 1)
    else scanNth rest n (i + 1)

/-- `end_pos` as computed by `get_lines` (src/cast.rs lines 253-269):
one past the `n`-th newline after `cur`, the end of file when fewer than
`n` newlines remain, and `cur` itself when `n = 0` (the source's
`newlines_found == n` check happens after an increment, so it never fires
for `n = 0`, and `newlines_found < 0` is false). -/
def computeEnd (mmap : List Char) (cur n : Nat) : Nat :=
  if n = 0 then cur
  else
    match scanNth (mmap.drop cur) n 0 with
    | some rel => cur + rel
    | none => mmap.length

/-- A chain's insertions, each positioned at the chain's anchor offset. -/
def chainPositioned (chain : ModificationChain) (loc : Nat) : List EventPositioned :=
  chain.modifications.map fun e => ⟨e, loc⟩

/-- The `while current_pos < end_pos` merge loop of `get_lines`
(src/cast.rs lines 275-313), with the overlay iterator as an explicit
list. When the next overlay entry sits ahead of `cur`, the raw bytes up
to it are parsed and the loop re-enters at the entry's offset, which is
inlined here as the entry branch; a `parse_events` failure is silently
dropped in the source (`if let Ok`), which cannot occur in this model.
(If an entry's key were below `cur` — possible only with an insertion
anchored inside a line skipped by `original_deleted` — the source would
panic on the backwards slice; the model parses an empty slice instead.) -/
def mergeLoop (mmap : List Char) (end_pos : Nat) : Overlay → Nat → List EventPositioned
  | [], cur => if cur < end_pos then parse_events (slice mmap cur end_pos) cur else []
  | (pos, chain) :: rest, cur =>
    if cur < end_pos then
      if pos = cur then
        chainPositioned chain cur ++
          mergeLoop mmap end_pos rest (if chain.original_deleted then find_next_newline mmap cur else cur)
      else
        let parse_end := min pos end_pos
        let evs := parse_events (slice mmap cur parse_end) cur
        if parse_end < end_pos then
          evs ++ chainPositioned chain parse_end ++
            mergeLoop mmap end_pos rest
              (if chain.original_deleted then find_next_newline mmap parse_end else parse_end)
        else evs
    else []

/-- Index of the last newline of `l` (`Iterator::rposition`). -/
def rfindIdx (l : List Char) : Option Nat :=
  match findIdxP (· = '\n') l.reverse with
  | some i => some (l.length - 1 - i)
  | none => none

/-- `CastFile::get_lines` (src/cast.rs lines 228-316). The scroll
fraction is clamped to `[0, 1]` and mapped to a byte position by
truncating multiplication with the file size (`f32` in the source,
exact rationals here); the window starts after the next newline, falling
back to the line containing the position, and errs only when the file
has no newline at all. -/
def get_lines (cf : CastFile) (pos : ℚ) (n : Nat) : Except CastError (List EventPositioned) :=
  let pos := if pos < 0 then 0 else if 1 < pos then 1 else pos
  -- `(pos * file_size) as usize` on the clamped, hence nonnegative, `pos`:
  -- the truncation of `pos * length`, written over `Nat` so it evaluates.
  let byte_pos := pos.num.toNat * cf.mmap.length / pos.den
  let start? : Option Nat :=
    match findIdxP (· = '\n') (cf.mmap.drop byte_pos) with
    | some p => some (byte_pos + p + 1)
    | none =>
      match rfindIdx (cf.mmap.take byte_pos) with
      | some p => some (p + 1)
      | none => none
  match start? with
  | none => .error (.DeserializationError "No Newlines Found in File")
  | some current_pos =>
    let end_pos := computeEnd cf.mmap current_pos n
    .ok (mergeLoop cf.mmap end_pos
      (cf.modifications.filter fun pr => current_pos ≤ pr.1 ∧ pr.1 < end_pos)
      current_pos)

/-! ### Save (write_modified_file) -/

/-- `Theme::color_to_hex`: `#rrggbb`, lowercase, 2-digit padded. -/
def color_to_hex (c : Color32) : List Char :=
  '#' :: [hexDigit (c.r / 16 % 16), hexDigit (c.r % 16),
    hexDigit (c.g / 16 % 16), hexDigit (c.g % 16),
    hexDigit (c.b / 16 % 16), hexDigit (c.b % 16)]

/-- A JSON string literal for `s`. -/
def jsonStrOut (s : String) : List Char := '"' :: (jsonEscape s.toList ++ ['"'])

/-- `impl Serialize for Theme` (src/asciicast_egui.rs lines 129-155):
validates the palette (8 or 16 entries) and emits the struct with the
palette joined into one colon-separated string. -/
def serializeTheme (t : Theme) : Except CastError (List Char) :=
  if t.palette.length = 8 ∨ t.palette.length = 16 then
    .ok ("\x7b\"fg\":\"".toList ++ color_to_hex t.fg ++ "\",\"bg\":\"".toList ++ color_to_hex t.bg ++
      "\",\"palette\":\"".toList ++
      (List.intersperse [':'] (t.palette.map color_to_hex)).flatten ++ "\"\x7d".toList)
  else
    .error (.SerializationError
      ("Invalid palette size: expected 8 or 16 colors, got " ++ String.mk (natToChars t.palette.length)))

/-- An optional serde field: nothing when `None`
(`skip_serializing_if = "Option::is_none"`), otherwise
`,"name":<value>`. -/
def optField (name : String) : Option (List Char) → List Char
  | none => []
  | some v => ',' :: '"' :: (name.toList ++ '"' :: ':' :: v)

/-- `serde_json::to_writer(&mut writer, &self.header)` with the derived
`Serialize for Header`: a JSON object with the fields in declaration
order, the `None` options omitted. (The derived serializer itself cannot
fail except through the custom `Theme` serializer's palette check, whose
error `write_modified_file` wraps into `SerializationError`; `env` is
emitted in the model's list order, standing in for the `HashMap`'s
unspecified order.) -/
def serializeHeader (h : Header) : Except CastError (List Char) :=
  match h.theme.map serializeTheme with
  | some (.error e) => .error e
  | other =>
    let themeChars : Option (List Char) :=
      match other with
      | some (.ok t) => some t
      | _ => none
    .ok ("\x7b\"version\":".toList ++ natToChars h.version ++
      ",\"width\":".toList ++ natToChars h.width ++
      ",\"height\":".toList ++ natToChars h.height ++
      optField "timestamp" (h.timestamp.map natToChars) ++
      optField "duration" (h.duration.map ratChars) ++
      optField "idle_time_limit" (h.idle_time_limit.map ratChars) ++
      optField "command" (h.command.map jsonStrOut) ++
      optField "title" (h.title.map jsonStrOut) ++
      optField "env" (h.env.map fun kvs =>
        "\x7b".toList ++
          (List.intersperse [','] (kvs.map fun kv => jsonStrOut kv.1 ++ ':' :: jsonStrOut kv.2)).flatten ++
          "\x7d".toList) ++
      optField "theme" themeChars ++
      "\x7d".toList)

/-- All of a chain's insertions serialized in order. -/
def serializeChain (evs : List Event) : List Char := (evs.map serialize_event).flatten

/-- The `while current_pos < self.mmap.len()` loop of
`write_modified_file` (src/cast.rs lines 345-374), the overlay iterator
as an explicit list; same shape as `mergeLoop` but copying raw bytes
verbatim between overlay offsets and serializing chain insertions through
`serialize_event`. -/
def saveLoop (mmap : List Char) : Overlay → Nat → List Char
  | [], cur => mmap.drop cur
  | (pos, chain) :: rest, cur =>
    if cur < mmap.length then
      if pos = cur then
        serializeChain chain.modifications ++
          saveLoop mmap rest (if chain.original_deleted then find_next_newline mmap cur else cur)
      else
        let write_end := min pos mmap.length
        let written := slice mmap cur write_end
        if write_end < mmap.length then
          written ++ serializeChain chain.modifications ++
            saveLoop mmap rest
              (if chain.original_deleted then find_next_newline mmap write_end else write_end)
        else written
    else []

/-- `CastFile::write_modified_file` (src/cast.rs lines 332-378): the
re-serialized header, a newline, then the merged body starting after the
first newline of the map. `save_to_file` is this plus the file-system
I/O around it. -/
def write_modified_file (cf : CastFile) : Except CastError (List Char) :=
  match serializeHeader cf.header with
  | .error e => .error e
  | .ok hdr =>
    let body_start := (findIdxP (· = '\n') cf.mmap).getD cf.mmap.length + 1
    .ok (hdr ++ '\n' :: saveLoop cf.mmap cf.modifications body_start)

/-! ## Concrete instances and validity predicates used in the theorems -/

/-- The chain stored at `k`, the fresh empty chain when none is
(`entry(k).or_insert_with(new)` reads this way). -/
def chainAt (mods : Overlay) (k : Nat) : ModificationChain :=
  (olook mods k).getD ModificationChain.new

/-- The header of the spec's example file. -/
def exHeader : Header := ⟨2, 80, 24, none, none, none, none, none, none, none⟩

/-- The spec's example file: the header line and three `Output` events at
times 1.0, 2.0, 3.0 (event lines start at offsets 37, 53, 69). -/
def exMmap : List Char :=
  ("\x7b\"version\":2,\"width\":80,\"height\":24\x7d\n[1.0, \"o\", \"a\"]\n[2.0, \"o\", \"b\"]\n[3.0, \"o\", \"c\"]\n").toList

/-- The overlay after inserting `Output("x")` at time 1.5 between the
first two events of the example file, exactly as `action` builds it. -/
def exOverlay : Overlay :=
  (action [] (.Addition ⟨mkRat 3 2, .Output "x"⟩) 0 ⟨⟨2, .Output "b"⟩, 53⟩
    (some ⟨⟨1, .Output "a"⟩, 37⟩)).1

/-- A two-event file with a one-character header line: event lines start
at offsets 2 and 16. -/
def cexMmap : List Char := ("H\n[1, \"o\", \"a\"]\n[2, \"o\", \"b\"]\n").toList

/-- `cexMmap` with an insertion anchored at its first event line. -/
def cexCast : CastFile := ⟨cexMmap, exHeader, [(2, ⟨[⟨mkRat 3 2, .Output "x"⟩], false⟩)]⟩

/-- A body line the per-line parser accepts: no newline inside, no
trailing carriage return, nonempty once trimmed, and
`serde_json::from_str::<Event>` parses its trimmed text to `e`. -/
def ValidLine (l : List Char) (e : Event) : Prop :=
  '\n' ∉ l ∧ l.getLast? ≠ some '\r' ∧ trimChars l ≠ [] ∧ parseLine (trimChars l) = some e

/-! ## Lemmas about the overlay store -/

theorem olook_oinsert (m : Overlay) (k : Nat) (v : ModificationChain) (k' : Nat) :
    olook (oinsert m k v) k' = if k' = k then some v else olook m k' := by
  induction m with
  | nil => by_cases h : k' = k <;> simp [oinsert, olook, h]
  | cons p rest ih =>
    obtain ⟨k0, v0⟩ := p
    by_cases h1 : k < k0
    · by_cases h2 : k' = k <;> simp [oinsert, if_pos h1, olook, h2]
    · by_cases h2 : k = k0
      · subst h2
        by_cases h3 : k' = k <;> simp [oinsert, if_neg h1, olook, h3]
      · by_cases h3 : k' = k0
        · subst h3
          have h4 : ¬k' = k := fun h => h2 h.symm
          simp [oinsert, if_neg h1, if_neg h2, olook, h4]
        · simp [oinsert, if_neg h1, if_neg h2, olook, h3, ih]

theorem ensure_entry_snd (m : Overlay) (k : Nat) :
    (ensure_entry m k).2 = chainAt m k := by
  cases h : olook m k <;> simp [ensure_entry, chainAt, h]

theorem olook_ensure_self (m : Overlay) (k : Nat) :
    olook (ensure_entry m k).1 k = some (ensure_entry m k).2 := by
  cases h : olook m k <;> simp [ensure_entry, h, olook_oinsert]

theorem olook_ensure_ne (m : Overlay) (k k' : Nat) (h : k' ≠ k) :
    olook (ensure_entry m k).1 k' = olook m k' := by
  cases h2 : olook m k <;> simp [ensure_entry, h2, olook_oinsert, h]

/-- `action` leaves every chain at a key other than the current byte
location exactly as it was. -/
theorem action_frame_other (mods : Overlay) (act : ModificationAction) (order : Nat)
    (ce : EventPositioned) (pe : Option EventPositioned) (k' : Nat)
    (h : k' ≠ ce.byte_location) :
    olook (action mods act order ce pe).1 k' = olook mods k' := by
  cases act with
  | Addition ev =>
    cases pe with
    | none => simp [action, olook_ensure_ne _ _ _ h]
    | some p =>
      by_cases ht : p.event.time < ev.time ∧ ev.time < ce.event.time <;>
        simp [action, ht, olook_oinsert, h, olook_ensure_ne _ _ _ h]
  | Deletion =>
    cases hg : (ensure_entry mods ce.byte_location).2.modifications[min order (ensure_entry mods ce.byte_location).2.modifications.length]? with
    | some e => simp [action, hg, olook_oinsert, h, olook_ensure_ne _ _ _ h]
    | none => simp [action, hg, olook_oinsert, h, olook_ensure_ne _ _ _ h]
  | ModifyData d =>
    cases hg : (ensure_entry mods ce.byte_location).2.modifications[min order (ensure_entry mods ce.byte_location).2.modifications.length]? with
    | some e => simp [action, hg, olook_oinsert, h, olook_ensure_ne _ _ _ h]
    | none => simp [action, hg, olook_ensure_ne _ _ _ h]

/-- After any `action`, a chain exists at the current byte location. -/
theorem action_chain_isSome (mods : Overlay) (act : ModificationAction) (order : Nat)
    (ce : EventPositioned) (pe : Option EventPositioned) :
    (olook (action mods act order ce pe).1 ce.byte_location).isSome := by
  cases act with
  | Addition ev =>
    cases pe with
    | none => simp [action, olook_ensure_self mods ce.byte_location]
    | some p =>
      by_cases ht : p.event.time < ev.time ∧ ev.time < ce.event.time <;>
        simp [action, ht, olook_oinsert, olook_ensure_self mods ce.byte_location]
  | Deletion =>
    cases hg : (ensure_entry mods ce.byte_location).2.modifications[min order (ensure_entry mods ce.byte_location).2.modifications.length]? with
    | some e => simp [action, hg, olook_oinsert]
    | none => simp [action, hg, olook_oinsert]
  | ModifyData d =>
    cases hg : (ensure_entry mods ce.byte_location).2.modifications[min order (ensure_entry mods ce.byte_location).2.modifications.length]? with
    | some e => simp [action, hg, olook_oinsert]
    | none => simp [action, hg, olook_ensure_self mods ce.byte_location]

/-- `action` never removes an existing chain (at any key). -/
theorem action_preserves_chain (mods : Overlay) (act : ModificationAction) (order : Nat)
    (ce : EventPositioned) (pe : Option EventPositioned) (k : Nat)
    (h : (olook mods k).isSome) :
    (olook (action mods act order ce pe).1 k).isSome := by
  by_cases hk : k = ce.byte_location
  · subst hk; exact action_chain_isSome mods act order ce pe
  · rw [action_frame_other _ _ _ _ _ _ hk]; exact h

/-- A failed `Addition` changes nothing beyond the entry creation. -/
theorem addition_failed_frame (mods : Overlay) (ev : Event) (order : Nat)
    (ce : EventPositioned) (pe : Option EventPositioned)
    (h : (action mods (.Addition ev) order ce pe).2 ≠ none) :
    (action mods (.Addition ev) order ce pe).1 = (ensure_entry mods ce.byte_location).1 := by
  cases pe with
  | none => rfl
  | some p =>
    by_cases ht : p.event.time < ev.time ∧ ev.time < ce.event.time
    · exact absurd (by simp [action, ht]) h
    · simp [action, ht]

/-- A failed `ModifyData` changes nothing beyond the entry creation. -/
theorem modifydata_failed_frame (mods : Overlay) (d : EventData) (order : Nat)
    (ce : EventPositioned) (pe : Option EventPositioned)
    (h : (action mods (.ModifyData d) order ce pe).2 ≠ none) :
    (action mods (.ModifyData d) order ce pe).1 = (ensure_entry mods ce.byte_location).1 := by
  cases hg : (ensure_entry mods ce.byte_location).2.modifications[min order (ensure_entry mods ce.byte_location).2.modifications.length]? with
  | some e => exact absurd (by simp [action, hg]) h
  | none => simp [action, hg]

/-- `Deletion` always succeeds. -/
theorem deletion_ok (mods : Overlay) (order : Nat) (ce : EventPositioned)
    (pe : Option EventPositioned) :
    (action mods .Deletion order ce pe).2 = none := by
  cases hg : (ensure_entry mods ce.byte_location).2.modifications[min order (ensure_entry mods ce.byte_location).2.modifications.length]? with
  | some e => simp [action, hg]
  | none => simp [action, hg]

/-- `ensure_entry` on a key whose chain already exists changes nothing. -/
theorem ensure_entry_of_olook (m : Overlay) (k : Nat) (c : ModificationChain)
    (h : olook m k = some c) : ensure_entry m k = (m, c) := by
  simp [ensure_entry, h]

/-- A `Deletion` whose order is at or past the chain length toggles
`original_deleted` and keeps the insertions. -/
theorem deletion_toggle_step (m : Overlay) (order : Nat) (ce : EventPositioned)
    (hlen : (chainAt m ce.byte_location).modifications.length ≤ order) :
    action m .Deletion order ce none =
      (oinsert (ensure_entry m ce.byte_location).1 ce.byte_location
        ⟨(chainAt m ce.byte_location).modifications,
          !(chainAt m ce.byte_location).original_deleted⟩, none) := by
  have hmin : min order (chainAt m ce.byte_location).modifications.length =
      (chainAt m ce.byte_location).modifications.length := Nat.min_eq_right hlen
  have hnone : ∀ l : List Event, l[l.length]? = none := fun l => List.getElem?_eq_none le_rfl
  simp [action, ensure_entry_snd, hmin, hnone]

/-! ## C2, C7, C9, C10 — the `action` claims -/

/-- C2: `action(Addition(event), order, current, previous)` fails with
`UnverifiableTime` when `previous` is `None`; with `previous` supplied it
succeeds iff `previous.event.time < event.time < current.event.time`
holds strictly (boundary equality included in the failing side, which
reports `TimingError`), and on success inserts `event` into the chain at
`current.byte_location` at the clamped index `order`. -/
theorem addition_timing_spec (mods : Overlay) (order : Nat)
    (current_event : EventPositioned) (previous_event : Option EventPositioned) (event : Event) :
    (previous_event = none →
      action mods (.Addition event) order current_event previous_event =
        ((ensure_entry mods current_event.byte_location).1, some .UnverifiableTime)) ∧
    ∀ p, previous_event = some p →
      (((action mods (.Addition event) order current_event previous_event).2 = none ↔
          p.event.time < event.time ∧ event.time < current_event.event.time) ∧
        (p.event.time < event.time ∧ event.time < current_event.event.time →
          action mods (.Addition event) order current_event previous_event =
            (oinsert (ensure_entry mods current_event.byte_location).1 current_event.byte_location
              { modifications :=
                  insertAt (ensure_entry mods current_event.byte_location).2.modifications
                    (min order (ensure_entry mods current_event.byte_location).2.modifications.length)
                    event,
                original_deleted :=
                  (ensure_entry mods current_event.byte_location).2.original_deleted },
              none)) ∧
        (¬(p.event.time < event.time ∧ event.time < current_event.event.time) →
          action mods (.Addition event) order current_event previous_event =
            ((ensure_entry mods current_event.byte_location).1, some .TimingError))) := by
  refine ⟨?_, ?_⟩
  · rintro rfl; rfl
  · rintro p rfl
    by_cases ht : p.event.time < event.time ∧ event.time < current_event.event.time
    · exact ⟨by simp [action, ht], fun _ => by simp [action, ht], fun hc => absurd ht hc⟩
    · exact ⟨by simp [action, ht], fun hc => absurd hc ht, fun _ => by simp [action, ht]⟩

/-- Witness for C2: inserting `Output("x")` at time 1.5 between events at
times 1.0 and 2.0 succeeds and stores the chain `[x]` at offset 53. -/
theorem addition_timing_spec_witness :
    action [] (.Addition ⟨mkRat 3 2, .Output "x"⟩) 0 ⟨⟨2, .Output "b"⟩, 53⟩
        (some ⟨⟨1, .Output "a"⟩, 37⟩) =
      ([(53, ⟨[⟨mkRat 3 2, .Output "x"⟩], false⟩)], none) := by
  have h := ((addition_timing_spec [] 0 ⟨⟨2, .Output "b"⟩, 53⟩ (some ⟨⟨1, .Output "a"⟩, 37⟩)
      ⟨mkRat 3 2, .Output "x"⟩).2 ⟨⟨1, .Output "a"⟩, 37⟩ rfl).2.1 (by decide)
  exact h.trans (by decide)

/-- C10: `action` with `Deletion` never returns an error: a clamped order
indexing an existing insertion removes that insertion, and any other
order (the clamp makes it exactly the chain length) toggles
`original_deleted`. -/
theorem deletion_total_spec (mods : Overlay) (order : Nat)
    (current_event : EventPositioned) (previous_event : Option EventPositioned) :
    (action mods .Deletion order current_event previous_event).2 = none ∧
    (min order (ensure_entry mods current_event.byte_location).2.modifications.length <
        (ensure_entry mods current_event.byte_location).2.modifications.length →
      action mods .Deletion order current_event previous_event =
        (oinsert (ensure_entry mods current_event.byte_location).1 current_event.byte_location
          { modifications :=
              (ensure_entry mods current_event.byte_location).2.modifications.eraseIdx
                (min order (ensure_entry mods current_event.byte_location).2.modifications.length),
            original_deleted := (ensure_entry mods current_event.byte_location).2.original_deleted },
          none)) ∧
    ((ensure_entry mods current_event.byte_location).2.modifications.length ≤
        min order (ensure_entry mods current_event.byte_location).2.modifications.length →
      action mods .Deletion order current_event previous_event =
        (oinsert (ensure_entry mods current_event.byte_location).1 current_event.byte_location
          { modifications := (ensure_entry mods current_event.byte_location).2.modifications,
            original_deleted :=
              !(ensure_entry mods current_event.byte_location).2.original_deleted },
          none)) := by
  refine ⟨deletion_ok mods order current_event previous_event, fun hlt => ?_, fun hle => ?_⟩
  · have hg := List.getElem?_eq_getElem hlt
    simp [action, hg]
  · have hg : (ensure_entry mods current_event.byte_location).2.modifications[min order (ensure_entry mods current_event.byte_location).2.modifications.length]? = none :=
      List.getElem?_eq_none hle
    simp [action, hg]

/-- Witness for C10: deleting at an order past an absent chain creates
the chain and toggles its deletion flag, with no error. -/
theorem deletion_total_spec_witness :
    action [] .Deletion 5 ⟨⟨1, .Output "a"⟩, 7⟩ none = ([(7, ⟨[], true⟩)], none) := by
  have h := (deletion_total_spec [] 5 ⟨⟨1, .Output "a"⟩, 7⟩ none).2.2 (by decide)
  exact h.trans (by decide)

/-- C7: with `order` pointing at or past the chain length, a `Deletion`
toggles `original_deleted` and leaves the insertion list unchanged;
doing it twice restores the original flag. -/
theorem deletion_toggle_idempotent (mods : Overlay) (order : Nat)
    (current_event : EventPositioned)
    (h : (chainAt mods current_event.byte_location).modifications.length ≤ order) :
    (action mods .Deletion order current_event none).2 = none ∧
    olook (action mods .Deletion order current_event none).1 current_event.byte_location =
      some ⟨(chainAt mods current_event.byte_location).modifications,
        !(chainAt mods current_event.byte_location).original_deleted⟩ ∧
    (action (action mods .Deletion order current_event none).1 .Deletion order
        current_event none).2 = none ∧
    olook (action (action mods .Deletion order current_event none).1 .Deletion order
        current_event none).1 current_event.byte_location =
      some ⟨(chainAt mods current_event.byte_location).modifications,
        (chainAt mods current_event.byte_location).original_deleted⟩ := by
  have hstep1 := deletion_toggle_step mods order current_event h
  have holk1 : olook (action mods .Deletion order current_event none).1
      current_event.byte_location =
      some ⟨(chainAt mods current_event.byte_location).modifications,
        !(chainAt mods current_event.byte_location).original_deleted⟩ := by
    rw [hstep1]; simp [olook_oinsert]
  have hchain2 : chainAt (action mods .Deletion order current_event none).1
      current_event.byte_location =
      ⟨(chainAt mods current_event.byte_location).modifications,
        !(chainAt mods current_event.byte_location).original_deleted⟩ := by
    rw [chainAt, holk1]; rfl
  have hstep2 := deletion_toggle_step (action mods .Deletion order current_event none).1 order
    current_event (by rw [hchain2]; exact h)
  refine ⟨by rw [hstep1], holk1, by rw [hstep2], ?_⟩
  rw [hstep2]; simp [olook_oinsert, hchain2, Bool.not_not]

/-- C9: every `action` and `advanced_action` call — errors included —
first ensures a chain exists at `current.byte_location` (creating the
empty chain when the key was absent), and a failed `Addition` or
`ModifyData` changes nothing else in the store. -/
theorem entry_creation_and_frame_spec :
    (∀ (mods : Overlay) (k : Nat), olook mods k = none →
      (ensure_entry mods k).1 = oinsert mods k ModificationChain.new) ∧
    (∀ (mods : Overlay) (act : ModificationAction) (order : Nat) (ce : EventPositioned)
        (pe : Option EventPositioned),
      (olook (action mods act order ce pe).1 ce.byte_location).isSome) ∧
    (∀ (mods : Overlay) (act : AdvancedModificationAction) (order : Nat) (ce : EventPositioned)
        (pe ne : Option EventPositioned),
      (olook (advanced_action mods act order ce pe ne).1 ce.byte_location).isSome) ∧
    (∀ (mods : Overlay) (ev : Event) (order : Nat) (ce : EventPositioned)
        (pe : Option EventPositioned),
      (action mods (.Addition ev) order ce pe).2 ≠ none →
        (action mods (.Addition ev) order ce pe).1 = (ensure_entry mods ce.byte_location).1) ∧
    (∀ (mods : Overlay) (d : EventData) (order : Nat) (ce : EventPositioned)
        (pe : Option EventPositioned),
      (action mods (.ModifyData d) order ce pe).2 ≠ none →
        (action mods (.ModifyData d) order ce pe).1 = (ensure_entry mods ce.byte_location).1) := by
  refine ⟨fun mods k h => by simp [ensure_entry, h],
    fun mods act order ce pe => action_chain_isSome mods act order ce pe,
    fun mods act order ce pe ne => ?_,
    fun mods ev order ce pe h => addition_failed_frame mods ev order ce pe h,
    fun mods d order ce pe h => modifydata_failed_frame mods d order ce pe h⟩
  cases act with
  | Modify ev =>
    cases ne with
    | none => simp [advanced_action, olook_ensure_self]
    | some nx =>
      cases pe with
      | none => simp [advanced_action, olook_ensure_self]
      | some p =>
        have hd := deletion_ok (ensure_entry mods ce.byte_location).1
          (min order (ensure_entry mods ce.byte_location).2.modifications.length) ce none
        rcases hr2 : (action (action (ensure_entry mods ce.byte_location).1 .Deletion
            (min order (ensure_entry mods ce.byte_location).2.modifications.length) ce none).1
            (.Addition ev) 0 nx (some p)).2 with _ | e <;>
          · simp only [advanced_action, hd, hr2]
            exact action_preserves_chain _ _ _ _ _ _ (action_chain_isSome _ _ _ _ _)
  | Swap tgt t_order =>
    simp only [advanced_action]
    exact action_preserves_chain _ _ _ _ _ _ (action_chain_isSome _ _ _ _ _)

/-- Witness for C9: a failed `Addition` (no previous event supplied) has
still created the empty chain at the current byte location, and nothing
else. -/
theorem entry_creation_and_frame_spec_witness :
    (action [] (.Addition ⟨5, .Output "x"⟩) 0 ⟨⟨2, .Output "b"⟩, 4⟩ none).1 =
      [(4, ModificationChain.new)] := by
  have h := entry_creation_and_frame_spec.2.2.2.1 [] ⟨5, .Output "x"⟩ 0 ⟨⟨2, .Output "b"⟩, 4⟩
    none (by decide)
  exact h.trans (by decide)

/-- Counterexample for C3 as stated: this `Modify` fails with
`TimingError` (the new time 5 is not below the next event's time 3), yet
the chain at `current.byte_location = 16` has been changed — its
`original_deleted` flag was toggled to `true` by the already-applied
`Deletion` step, and an empty chain was also created at
`next.byte_location = 30`. -/
theorem modify_failure_partial_cex :
    advanced_action [] (.Modify ⟨5, .Output "B"⟩) 0 ⟨⟨2, .Output "b"⟩, 16⟩
        (some ⟨⟨1, .Output "a"⟩, 2⟩) (some ⟨⟨3, .Output "c"⟩, 30⟩) =
      ([(16, ⟨[], true⟩), (30, ⟨[], false⟩)], some .TimingError) := by decide

/-- C3 (amended): a failed operation is always reported as an error, and
a failed primitive `action` changes nothing beyond creating an empty
chain; but a composite `advanced_action` `Modify` is not atomic — when
it fails with `UnverifiableTime` (missing neighbour) the store is only
entry-ensured at `current.byte_location`, while when the `Addition` step
fails the timing check the already-executed `Deletion` at
`current.byte_location` stays applied (the chain at `next.byte_location`
still gains no insertion; at most the empty chain is created there). -/
theorem modify_failure_partial_spec (mods : Overlay) (ev : Event) (order : Nat)
    (ce : EventPositioned) (pe ne : Option EventPositioned) :
    (ne = none →
      advanced_action mods (.Modify ev) order ce pe ne =
        ((ensure_entry mods ce.byte_location).1, some .UnverifiableTime)) ∧
    (∀ nx, ne = some nx → pe = none →
      advanced_action mods (.Modify ev) order ce pe ne =
        ((ensure_entry mods ce.byte_location).1, some .UnverifiableTime)) ∧
    (∀ nx p, ne = some nx → pe = some p →
      ¬(p.event.time < ev.time ∧ ev.time < nx.event.time) →
      advanced_action mods (.Modify ev) order ce pe ne =
        ((ensure_entry (action (ensure_entry mods ce.byte_location).1 .Deletion
            (min order (ensure_entry mods ce.byte_location).2.modifications.length) ce none).1
          nx.byte_location).1, some .TimingError)) := by
  refine ⟨?_, ?_, ?_⟩
  · rintro rfl; rfl
  · rintro nx rfl rfl; rfl
  · rintro nx p rfl rfl ht
    have hd := deletion_ok (ensure_entry mods ce.byte_location).1
      (min order (ensure_entry mods ce.byte_location).2.modifications.length) ce none
    have ha : action (action (ensure_entry mods ce.byte_location).1 .Deletion
        (min order (ensure_entry mods ce.byte_location).2.modifications.length) ce none).1
        (.Addition ev) 0 nx (some p) =
        ((ensure_entry (action (ensure_entry mods ce.byte_location).1 .Deletion
            (min order (ensure_entry mods ce.byte_location).2.modifications.length) ce none).1
          nx.byte_location).1, some .TimingError) := by
      simp [action, ht]
    simp only [advanced_action, hd, ha]

/-- Witness for C3 (amended): the timing-failure case evaluated on a
concrete state — the error is surfaced, the `Deletion` stays applied at
offset 16 and offset 30 only gains an empty chain. -/
theorem modify_failure_partial_spec_witness :
    advanced_action [] (.Modify ⟨7, .Output "B"⟩) 1 ⟨⟨2, .Output "b"⟩, 16⟩
        (some ⟨⟨1, .Output "a"⟩, 2⟩) (some ⟨⟨3, .Output "c"⟩, 30⟩) =
      ([(16, ⟨[], true⟩), (30, ⟨[], false⟩)], some .TimingError) := by
  have h := (modify_failure_partial_spec [] ⟨7, .Output "B"⟩ 1 ⟨⟨2, .Output "b"⟩, 16⟩
      (some ⟨⟨1, .Output "a"⟩, 2⟩) (some ⟨⟨3, .Output "c"⟩, 30⟩)).2.2 ⟨⟨3, .Output "c"⟩, 30⟩
    ⟨⟨1, .Output "a"⟩, 2⟩ rfl rfl (by decide)
  exact h.trans (by decide)

/-- C4: the `Swap` branch of `advanced_action` discards the results of
both `ModifyData` sub-calls and returns success. Evaluated on an empty
overlay: the identical `ModifyData` call fails with
`ModificationError`, yet the `Swap` reports no error. -/
theorem swap_swallows_errors :
    (advanced_action [] (.Swap ⟨⟨2, .Output "y"⟩, 9⟩ 0) 0 ⟨⟨1, .Output "x"⟩, 4⟩
        none none).2 = none ∧
    (action [] (.ModifyData (.Output "y")) 0 ⟨⟨1, .Output "x"⟩, 4⟩ none).2 =
      some .ModificationError := by decide

/-- Witness for C7: toggling twice at offset 9 on an overlay whose chain
there holds one insertion, with `order = 1` equal to the chain length. -/
theorem deletion_toggle_idempotent_witness :
    (action [(9, ⟨[⟨1, .Output "a"⟩], false⟩)] .Deletion 1 ⟨⟨2, .Output "b"⟩, 9⟩ none).2 = none ∧
    olook (action [(9, ⟨[⟨1, .Output "a"⟩], false⟩)] .Deletion 1 ⟨⟨2, .Output "b"⟩, 9⟩ none).1 9 =
      some ⟨[⟨1, .Output "a"⟩], true⟩ ∧
    (action (action [(9, ⟨[⟨1, .Output "a"⟩], false⟩)] .Deletion 1 ⟨⟨2, .Output "b"⟩, 9⟩ none).1
        .Deletion 1 ⟨⟨2, .Output "b"⟩, 9⟩ none).2 = none ∧
    olook (action (action [(9, ⟨[⟨1, .Output "a"⟩], false⟩)] .Deletion 1 ⟨⟨2, .Output "b"⟩, 9⟩
        none).1 .Deletion 1 ⟨⟨2, .Output "b"⟩, 9⟩ none).1 9 =
      some ⟨[⟨1, .Output "a"⟩], false⟩ := by
  simpa using deletion_toggle_idempotent [(9, ⟨[⟨1, .Output "a"⟩], false⟩)] 1
    ⟨⟨2, .Output "b"⟩, 9⟩ (by decide)

/-! ## C1, C5, C6 — codec and save claims -/

/-- C1 (code bug): the string lexer does not pass literal
backslash-escape sequences through unrendered — the escape-recognition
arm drops the backslash, so the well-formed line
`[1.0, "o", "a\nb"]` (with a literal two-character `\n` in the payload)
parses to the payload `anb`, and re-serializing yields
`[1, "o", "anb"]` rather than an equivalent line: the round trip loses
the backslash, contradicting the source's own comment that `\n` "will be
directly rendered as \n". -/
theorem lexer_drops_backslash :
    event_from_line_str ("[1.0, \"o\", \"a\\nb\"]".toList) = .ok ⟨1, .Output "anb"⟩ ∧
    event_format_chars ⟨1, .Output "anb"⟩ = "[1, \"o\", \"anb\"]".toList := by decide

/-- C5 (code bug): saving the example file after inserting
`Output("x")` at time 1.5 does not yield four bracket-form event lines:
the inserted line is emitted through `serde_json::to_string` of an
`Event` whose serializer calls `serialize_str`, so it comes out as the
JSON-string-wrapped text `"[1.5, \"o\", \"x\"]"` (leading quote,
re-escaped inner quotes), not in the on-disk bracket form the three
original lines keep. -/
theorem save_insertion_not_bracket_form :
    write_modified_file ⟨exMmap, exHeader, exOverlay⟩ =
      .ok (("\x7b\"version\":2,\"width\":80,\"height\":24\x7d\n" ++
        "[1.0, \"o\", \"a\"]\n" ++
        "\"[1.5, \\\"o\\\", \\\"x\\\"]\"\n" ++
        "[2.0, \"o\", \"b\"]\n[3.0, \"o\", \"c\"]\n").toList) := by decide

/-- C6: with zero overlay entries, `write_modified_file` emits the
re-serialized header, a newline, and then the original file's bytes
after its header line copied verbatim — so the output equals the
original file except for the header line. -/
theorem save_zero_overlay_fidelity (cf : CastFile) (hdr : List Char)
    (hmods : cf.modifications = []) (hhdr : serializeHeader cf.header = .ok hdr) :
    write_modified_file cf =
      .ok (hdr ++ '\n' :: cf.mmap.drop ((findIdxP (· = '\n') cf.mmap).getD cf.mmap.length + 1)) := by
  simp [write_modified_file, hhdr, hmods, saveLoop]

/-- Witness for C6: saving the untouched example file reproduces it
byte-for-byte (its header re-serializes to the identical line). -/
theorem save_zero_overlay_fidelity_witness :
    write_modified_file ⟨exMmap, exHeader, []⟩ = .ok exMmap := by
  have h := save_zero_overlay_fidelity ⟨exMmap, exHeader, []⟩
    ("\x7b\"version\":2,\"width\":80,\"height\":24\x7d".toList) rfl (by decide)
  exact h.trans (by decide)

/-! ## C8 — the `get_lines` window claims -/

/-- Counterexample for C8 as stated: with an overlay insertion anchored
at the first event line (offset 2), the first event `get_lines(0.0, 2)`
returns is the inserted event, not the file's first event line; and with
`n = 0` the call returns no events at all, so no returned event is the
first event line. -/
theorem get_lines_window_cex :
    get_lines cexCast 0 2 =
      .ok [⟨⟨mkRat 3 2, .Output "x"⟩, 2⟩, ⟨⟨1, .Output "a"⟩, 2⟩, ⟨⟨2, .Output "b"⟩, 16⟩] ∧
    get_lines ⟨cexMmap, exHeader, []⟩ 0 0 = .ok [] := by decide

theorem findIdxP_append_nl (hdr t : List Char) (h : '\n' ∉ hdr) :
    findIdxP (· = '\n') (hdr ++ '\n' :: t) = some hdr.length := by
  induction hdr with
  | nil => simp [findIdxP]
  | cons c cs ih =>
    have hc : ¬(c = '\n') := fun hh => h (by simp [hh])
    have hm : '\n' ∉ cs := fun hm => h (List.mem_cons_of_mem c hm)
    simp [findIdxP, hc, ih hm]

theorem scanNth_pos (l : List Char) (n i r : Nat) (h : scanNth l n i = some r) : i < r := by
  induction l generalizing n i with
  | nil => simp [scanNth] at h
  | cons c cs ih =>
    by_cases hc : c = '\n'
    · by_cases hn : n = 1
      · simp [scanNth, hc, hn] at h; omega
      · simp only [scanNth, if_pos hc, if_neg hn] at h
        have := ih _ _ h; omega
    · simp only [scanNth, if_neg hc] at h
      have := ih _ _ h; omega

theorem scanNth_append_first (l0 t : List Char) (n i : Nat) (h0 : '\n' ∉ l0) :
    scanNth (l0 ++ '\n' :: t) n i =
      if n = 1 then some (i + l0.length + 1) else scanNth t (n - 1) (i + l0.length + 1) := by
  induction l0 generalizing i with
  | nil => by_cases h1 : n = 1 <;> simp [scanNth, h1]
  | cons c cs ih =>
    have hc : ¬(c = '\n') := fun hh => h0 (by simp [hh])
    have hm : '\n' ∉ cs := fun hm => h0 (List.mem_cons_of_mem c hm)
    simp only [List.cons_append, scanNth, if_neg hc, List.append_eq]
    rw [ih (i + 1) hm, List.length_cons,
      show i + 1 + cs.length + 1 = i + (cs.length + 1) + 1 from by omega]

theorem computeEnd_ge (mmap : List Char) (cur n : Nat) (l0 t : List Char)
    (hdrop : mmap.drop cur = l0 ++ '\n' :: t) (h0 : '\n' ∉ l0) (hn : 1 ≤ n) :
    cur + l0.length + 1 ≤ computeEnd mmap cur n := by
  have hn0 : ¬(n = 0) := by omega
  have hlen : mmap.length - cur = l0.length + 1 + t.length := by
    have h := congrArg List.length hdrop
    simp [List.length_drop] at h
    omega
  rw [computeEnd, if_neg hn0, hdrop, scanNth_append_first l0 t n 0 h0]
  by_cases h1 : n = 1
  · simp [h1]; omega
  · rw [if_neg h1]
    cases hs : scanNth t (n - 1) (0 + l0.length + 1) with
    | some r => have := scanNth_pos _ _ _ _ hs; simp; omega
    | none => simp; omega

theorem slice_first_line (mmap : List Char) (cur e : Nat) (l0 t : List Char)
    (hdrop : mmap.drop cur = l0 ++ '\n' :: t) (he : cur + l0.length + 1 ≤ e) :
    slice mmap cur e = l0 ++ '\n' :: t.take (e - cur - (l0.length + 1)) := by
  rw [slice, hdrop, List.take_append_eq_append_take,
    List.take_of_length_le (by omega : l0.length ≤ e - cur)]
  obtain ⟨m, hm⟩ : ∃ m, e - cur - l0.length = m + 1 := ⟨e - cur - (l0.length + 1), by omega⟩
  rw [hm, List.take_succ_cons, show m = e - cur - (l0.length + 1) from by omega]

theorem parse_events_go_first (l0 t : List Char) (acc : List Char) (cpos : Nat)
    (h : '\n' ∉ l0) :
    parse_events_go (l0 ++ '\n' :: t) acc cpos =
      processLine (acc ++ l0) cpos ++
        parse_events_go t [] (cpos + (stripCR (acc ++ l0)).length + 1) := by
  induction l0 generalizing acc with
  | nil => simp [parse_events_go]
  | cons c cs ih =>
    have hc : ¬(c = '\n') := fun hh => h (by simp [hh])
    have hm : '\n' ∉ cs := fun hm => h (List.mem_cons_of_mem c hm)
    simp only [List.cons_append, parse_events_go, if_neg hc, List.append_eq]
    rw [ih (acc ++ [c]) hm, show acc ++ [c] ++ cs = acc ++ c :: cs from by simp]

theorem parse_events_head (l0 t : List Char) (e : Event) (cpos : Nat) (hv : ValidLine l0 e) :
    parse_events (l0 ++ '\n' :: t) cpos =
      ⟨e, cpos⟩ :: parse_events_go t [] (cpos + l0.length + 1) := by
  obtain ⟨h1, h2, h3, h4⟩ := hv
  have hcr : stripCR l0 = l0 := by rw [stripCR, if_neg h2]
  rw [parse_events, parse_events_go_first l0 t [] cpos h1]
  simp [processLine, hcr, h3, h4]

theorem rfindIdx_concat (xs : List Char) : rfindIdx (xs ++ ['\n']) = some xs.length := by
  rw [rfindIdx, List.reverse_append]
  simp [findIdxP]

theorem eq_concat_of_getLast? (l : List Char) (c : Char) (h : l.getLast? = some c) :
    ∃ xs, l = xs ++ [c] := by
  induction l with
  | nil => simp at h
  | cons a l ih =>
    cases l with
    | nil =>
      simp [List.getLast?] at h
      exact ⟨[], by simp [h]⟩
    | cons b l2 =>
      rw [List.getLast?_cons_cons] at h
      obtain ⟨xs, hxs⟩ := ih h
      exact ⟨a :: xs, by simp [hxs]⟩

/-- C8 (amended): for a `CastFile` whose overlay is empty and whose body
starts with a parseable, newline-terminated event line (and whose body,
if longer, ends with a newline), and any `n ≥ 1`: `get_lines(0.0, n)`
succeeds and its first returned event is the file's first event line
(positioned right after the header line, which is excluded); and
`get_lines(1.0, n)` succeeds with no error, returning the at most zero
event lines that lie after the final newline. -/
theorem get_lines_window_spec (cf : CastFile) (hdr l0 rest : List Char) (e0 : Event) (n : Nat)
    (hmap : cf.mmap = hdr ++ '\n' :: (l0 ++ '\n' :: rest))
    (hhdr : '\n' ∉ hdr) (hl0 : ValidLine l0 e0)
    (hlast : rest = [] ∨ rest.getLast? = some '\n')
    (hmods : cf.modifications = []) (hn : 1 ≤ n) :
    (∃ evs, get_lines cf 0 n = .ok evs ∧ evs.head? = some ⟨e0, hdr.length + 1⟩) ∧
    get_lines cf 1 n = .ok [] := by
  have hn0 : ¬(n = 0) := by omega
  have hdrop : cf.mmap.drop (hdr.length + 1) = l0 ++ '\n' :: rest := by
    rw [hmap, show hdr ++ '\n' :: (l0 ++ '\n' :: rest) =
      (hdr ++ ['\n']) ++ (l0 ++ '\n' :: rest) by simp,
      show hdr.length + 1 = (hdr ++ ['\n']).length by simp]
    exact List.drop_left _ _
  constructor
  · -- part (a): get_lines at position 0
    have h0a : ¬((0 : ℚ) < 0) := lt_irrefl 0
    have h0b : ¬((1 : ℚ) < 0) := by norm_num
    have hnum : (0 : ℚ).num.toNat = 0 := by decide
    have hden : (0 : ℚ).den = 1 := by decide
    have hfind : findIdxP (· = '\n') cf.mmap = some hdr.length := by
      rw [hmap]; exact findIdxP_append_nl hdr (l0 ++ '\n' :: rest) hhdr
    have hend := computeEnd_ge cf.mmap (hdr.length + 1) n l0 rest hdrop hl0.1 hn
    have hok : get_lines cf 0 n =
        .ok (mergeLoop cf.mmap (computeEnd cf.mmap (hdr.length + 1) n) []
          (hdr.length + 1)) := by
      simp [get_lines, h0a, h0b, hnum, hden, hfind, hmods]
    refine ⟨_, hok, ?_⟩
    have hml : mergeLoop cf.mmap (computeEnd cf.mmap (hdr.length + 1) n) []
        (hdr.length + 1) =
        parse_events (slice cf.mmap (hdr.length + 1) (computeEnd cf.mmap (hdr.length + 1) n))
          (hdr.length + 1) := by
      rw [mergeLoop, if_pos (by omega)]
    rw [hml, slice_first_line cf.mmap (hdr.length + 1) _ l0 rest hdrop hend,
      parse_events_head l0 _ e0 (hdr.length + 1) hl0]
    rfl
  · -- part (b): get_lines at position 1
    obtain ⟨xs, hxs⟩ : ∃ xs, cf.mmap = xs ++ ['\n'] := by
      rcases hlast with rfl | hl
      · exact ⟨hdr ++ '\n' :: l0, by rw [hmap]; simp⟩
      · obtain ⟨ys, hys⟩ := eq_concat_of_getLast? rest '\n' hl
        exact ⟨hdr ++ '\n' :: (l0 ++ '\n' :: ys), by rw [hmap, hys]; simp⟩
    have h1a : ¬((1 : ℚ) < 0) := by norm_num
    have h1b : ¬((1 : ℚ) < 1) := lt_irrefl 1
    have hnum : (1 : ℚ).num.toNat = 1 := by decide
    have hden : (1 : ℚ).den = 1 := by decide
    have hrf : rfindIdx cf.mmap = some xs.length := by
      rw [hxs]; exact rfindIdx_concat xs
    have hlen : cf.mmap.length = xs.length + 1 := by rw [hxs]; simp
    have hce : computeEnd cf.mmap cf.mmap.length n = cf.mmap.length := by
      rw [computeEnd, if_neg hn0, List.drop_length]
      rfl
    have hml : mergeLoop cf.mmap cf.mmap.length [] cf.mmap.length = [] := by
      rw [mergeLoop, if_neg (lt_irrefl _)]
    simp [get_lines, h1a, h1b, hnum, hden, findIdxP, hrf, hmods, ← hlen, hce, hml]

/-- Witness for C8 (amended): the two-event file read with `n = 2` at
positions 0 and 1. -/
theorem get_lines_window_spec_witness :
    (∃ evs, get_lines ⟨cexMmap, exHeader, []⟩ 0 2 = .ok evs ∧
      evs.head? = some ⟨⟨1, .Output "a"⟩, 2⟩) ∧
    get_lines ⟨cexMmap, exHeader, []⟩ 1 2 = .ok [] := by
  have h := get_lines_window_spec ⟨cexMmap, exHeader, []⟩ ("H".toList)
    ("[1, \"o\", \"a\"]".toList) ("[2, \"o\", \"b\"]\n".toList) ⟨1, .Output "a"⟩ 2
    (by decide) (by decide) ⟨by decide, by decide, by decide, by decide⟩
    (Or.inr (by decide)) rfl (by decide)
  simpa using h

end Asc
